import Mathlib

/-!
Shallow embedding of `split/manifest_split.py` (manifest_split tool).

The tool computes the minimal set of repo projects needed to build a set of
targets and filters a repo manifest down to that set.  The embedding models:

* the Python string operations used by the tool (`split`, `startswith`,
  `endswith`, `strip`, slicing, `os.path.join`, `os.path.normpath`) as
  structural functions over `List Char`, so that all definitions evaluate
  inside the kernel;
* `scan_repo_projects` (longest-prefix project resolution);
* `ModuleInfo.__init__` (module-graph construction from `module-info.json`);
* `get_ninja_inputs` (sharded external build-graph query plus post-filter);
* `get_kati_makefiles` (kati stamp filtering, overlay search, symlinks);
* `update_manifest` (manifest project filtering);
* the fixed-point closure loop of `create_split_manifest`.

External effects (the `ninja` binary, `ckati_stamp_dump`, the filesystem,
sha1) are modelled as oracle parameters: arbitrary functions supplied to the
definitions.  Python `set` iteration order is unspecified; the embedding
determinizes it by iterating sets in sorted order (see `sortedList`).  The
closure loop is modelled with an explicit pass counter (`fuel`): each
recursive call is one pass of the `while projects_to_check` loop, and the
uncaught `KeyError` of `process_deps` (see `headerDepProjects`) is modelled
by `Option`, `none` meaning the loop dies with an exception.
-/

/-- Lexicographic comparison of char lists by code point; kernel-reducible
model of Python string ordering (used only to determinize set iteration). -/
def charsLe : List Char → List Char → Bool
  | [], _ => true
  | _ :: _, [] => false
  | a :: as, b :: bs =>
    if a.toNat < b.toNat then true
    else if b.toNat < a.toNat then false
    else charsLe as bs

/-- String comparison via `charsLe`. -/
def strLe (a b : String) : Bool := charsLe a.data b.data

/-- `strLe` as a relation, for use with `List.insertionSort`. -/
def strLeR (a b : String) : Prop := strLe a b = true

instance : DecidableRel strLeR := fun a b => by unfold strLeR; infer_instance

instance : IsTotal String strLeR where
  total a b := by
    suffices H : ∀ (x y : List Char), charsLe x y = true ∨ charsLe y x = true from H a.data b.data
    intro x y
    induction x generalizing y with
    | nil => left; simp [charsLe]
    | cons u us ih =>
      cases y with
      | nil => right; simp [charsLe]
      | cons v vs =>
        rcases Nat.lt_trichotomy u.toNat v.toNat with h | h | h
        · left; simp [charsLe, h]
        · have huv : ¬ u.toNat < v.toNat := by omega
          have hvu : ¬ v.toNat < u.toNat := by omega
          rcases ih vs with h2 | h2
          · left; simp [charsLe, huv, hvu, h2]
          · right; simp [charsLe, huv, hvu, h2]
        · right; simp [charsLe, h]

instance : IsTrans String strLeR where
  trans a b c h1 h2 := by
    suffices H : ∀ (x y z : List Char), charsLe x y = true → charsLe y z = true →
        charsLe x z = true from H a.data b.data c.data h1 h2
    intro x y z hxy hyz
    induction x generalizing y z with
    | nil => simp [charsLe]
    | cons u us ih =>
      cases y with
      | nil => simp [charsLe] at hxy
      | cons v vs =>
        cases z with
        | nil => simp [charsLe] at hyz
        | cons w ws =>
          simp only [charsLe] at hxy hyz ⊢
          split at hxy
          · rename_i huv
            split at hyz
            · rename_i hvw
              simp [show u.toNat < w.toNat by omega]
            · split at hyz
              · exact absurd hyz (by simp)
              · rename_i hvw hwv
                simp [show u.toNat < w.toNat by omega]
          · split at hxy
            · exact absurd hxy (by simp)
            · rename_i huv hvu
              split at hyz
              · rename_i hvw
                simp [show u.toNat < w.toNat by omega]
              · split at hyz
                · exact absurd hyz (by simp)
                · rename_i hvw hwv
                  have h1' : ¬ u.toNat < w.toNat := by omega
                  have h2' : ¬ w.toNat < u.toNat := by omega
                  simp [h1', h2']
                  exact ih _ _ hxy hyz

instance : IsAntisymm String strLeR where
  antisymm a b h1 h2 := by
    suffices H : ∀ (x y : List Char), charsLe x y = true → charsLe y x = true → x = y by
      cases a; cases b; exact congrArg String.mk (H _ _ h1 h2)
    intro x y hxy hyx
    induction x generalizing y with
    | nil =>
      cases y with
      | nil => rfl
      | cons v vs => simp [charsLe] at hyx
    | cons u us ih =>
      cases y with
      | nil => simp [charsLe] at hxy
      | cons v vs =>
        simp only [charsLe] at hxy hyx
        split at hxy
        · rename_i huv
          rw [if_neg (by omega), if_pos huv] at hyx
          exact absurd hyx (by simp)
        · split at hxy
          · exact absurd hxy (by simp)
          · rename_i huv hvu
            simp [huv, hvu] at hyx
            have hc : u = v := Char.ext (UInt32.ext (show u.toNat = v.toNat by omega))
            rw [hc, ih _ hxy hyx]

/-- Canonical (sorted) list of the elements of a finite set of strings.
The Python source iterates over `set` objects whose order is unspecified;
this is the embedding's determinization of that order. -/
def sortedList (s : Finset String) : List String :=
  Quot.liftOn s.val (List.insertionSort strLeR) (fun a b h =>
    List.eq_of_perm_of_sorted
      ((List.perm_insertionSort _ a).trans (h.trans (List.perm_insertionSort _ b).symm))
      (List.sorted_insertionSort _ a) (List.sorted_insertionSort _ b))

/-- Python `s.startswith(pre)`. -/
def pyStartsWith (pre s : String) : Bool := pre.data.isPrefixOf s.data

/-- Python `s.endswith(suf)`. -/
def pyEndsWith (suf s : String) : Bool := suf.data.isSuffixOf s.data

/-- Python `s.strip()` (whitespace strip; the embedding uses Lean's
`Char.isWhitespace`, which covers the ASCII whitespace seen in ninja
output). -/
def pyStrip (s : String) : String :=
  String.mk (((s.data.dropWhile Char.isWhitespace).reverse.dropWhile Char.isWhitespace).reverse)

/-- Python `s[n:]` for a nonnegative `n` (used for overlay stripping). -/
def pyDrop (n : Nat) (s : String) : String := String.mk (s.data.drop n)

/-- Splits a char list at every occurrence of `c`, keeping empty pieces,
like Python `str.split` with an explicit one-character separator. -/
def splitCharList (c : Char) : List Char → List (List Char)
  | [] => [[]]
  | x :: xs =>
    match splitCharList c xs with
    | [] => [[]]
    | r :: rs => if x = c then [] :: r :: rs else (x :: r) :: rs

/-- Python `s.split(c)` for a one-character separator `c`. -/
def pySplit (c : Char) (s : String) : List String := (splitCharList c s.data).map String.mk

/-- Python `'/'.join(parts)`. -/
def joinSlash : List String → String
  | [] => ""
  | [x] => x
  | x :: xs => x ++ "/" ++ joinSlash xs

/-- Two-argument `os.path.join` (posixpath): an absolute second component
replaces the first; otherwise the components are glued with `/` unless the
first is empty or already ends in `/`. -/
def os_path_join2 (a b : String) : String :=
  if pyStartsWith "/" b then b
  else if a = "" ∨ pyEndsWith "/" a then a ++ b
  else a ++ "/" ++ b

/-- `os.path.join(*parts)` for a nonempty list of parts (posixpath). -/
def os_path_join : List String → String
  | [] => ""
  | a :: rest => rest.foldl os_path_join2 a

/-- `os.path.normpath` (posixpath): collapses empty and `.` components,
resolves `..` where possible, preserves up to two leading slashes. -/
def pyNormpath (path : String) : String :=
  if path = "" then "." else
  let initialSlashes : Nat :=
    if pyStartsWith "/" path then
      if pyStartsWith "//" path ∧ ¬ pyStartsWith "///" path = true then 2 else 1
    else 0
  let comps := pySplit '/' path
  let newComps := (comps.foldl (fun (acc : List String) comp =>
      if comp = "" ∨ comp = "." then acc
      else if comp ≠ ".." ∨ (initialSlashes = 0 ∧ acc = []) ∨ acc.head? = some ".." then
        comp :: acc
      else if acc ≠ [] then acc.tail
      else acc) []).reverse
  let joined := String.mk (List.replicate initialSlashes '/') ++ joinSlash newComps
  if joined = "" then "." else joined

/-- `scan_repo_projects` (manifest_split.py:312): longest-prefix resolution
of an input path to a known project path.  `repo_projects` is the
path-to-name dictionary built by `get_repo_projects`; membership is keyed
on the path, and the resolved path (not the name) is returned. -/
def scan_repo_projects (repo_projects : String → Option String)
    (input_path : String) : Option String :=
  let parts := pySplit '/' input_path
  (List.range parts.length).reverse.findSome? (fun index =>
    let project_path := os_path_join (parts.take (index + 1))
    if (repo_projects project_path).isSome then some project_path else none)

/-- `get_input_projects` (manifest_split.py:333), restricted to the set of
project names it returns (`.keys()` is the only use in the closure): paths
under `out/` or absolute paths are skipped, the remainder are resolved via
`scan_repo_projects` and mapped to project names, unresolved paths are
dropped. -/
def get_input_projects (repo_projects : String → Option String)
    (inputs : Finset String) : Finset String :=
  (inputs.filter (fun path =>
      pyStartsWith "out/" path = false ∧ pyStartsWith "/" path = false)).biUnion
    (fun path => ((scan_repo_projects repo_projects path).bind repo_projects).toFinset)

/-- Shard size cap of `get_ninja_inputs` (manifest_split.py:207). -/
def NINJA_SHARD_LIMIT : Nat := 20000

/-- Fuel-indexed slicing `modules[i:i+limit]` for `i in range(0, len, limit)`;
`fuel = l.length` always suffices since `limit ≥ 1`. -/
def shardsAux (limit : Nat) : Nat → List String → List (List String)
  | 0, _ => []
  | _, [] => []
  | fuel + 1, l => l.take limit :: shardsAux limit fuel (l.drop limit)

/-- The shards of the module list passed to successive ninja invocations. -/
def shards (l : List String) : List (List String) := shardsAux NINJA_SHARD_LIMIT l.length l

/-- `input_allowed` inside `get_ninja_inputs` (manifest_split.py:220):
returns the stripped path, or `""` (falsy, standing for both `False` and an
empty stripped path) when the path is to be dropped. -/
def input_allowed (modules : List String) (path : String) : String :=
  let p := pyStrip path
  if pyEndsWith "TEST_MAPPING" p && !(modules.contains "test_mapping") then ""
  else if pyEndsWith "MODULE_LICENSE_GPL" p then ""
  else p

/-- `get_ninja_inputs` (manifest_split.py:196).  `ninja_tool` is the oracle
for one `ninja -t inputs` subprocess call: it maps the module shard to the
list of output lines.  The shard unions are followed by the
`input_allowed` post-filter and stripping. -/
def get_ninja_inputs (ninja_tool : List String → List String)
    (modules : List String) : Finset String :=
  let inputs := (shards modules).foldl
    (fun acc shard => acc ∪ (ninja_tool shard).toFinset) (∅ : Finset String)
  (inputs.filter (fun path => input_allowed modules path ≠ "")).image pyStrip

/-- Filesystem oracle for `get_kati_makefiles`: `os.path.exists`,
`os.path.islink`, `os.path.realpath`, `os.path.relpath`. -/
structure FileSystem where
  pathExists : String → Bool
  isLink : String → Bool
  realpath : String → String
  relpath : String → String

/-- `is_product_makefile` (manifest_split.py:255). -/
def is_product_makefile (makefile : String) : Bool :=
  (["out/", "device/amlogic", "device/generic", "device/google",
    "device/linaro", "device/sample"].all (fun p => !(pyStartsWith p makefile))) &&
  (["Android.mk", "bin/ckati"].all (fun s => !(pyEndsWith s makefile)))

/-- `strip_overlay` (manifest_split.py:282): drop the first matching overlay
prefix. -/
def strip_overlay (overlays : List String) (makefile : String) : String :=
  match overlays.find? (fun overlay => pyStartsWith overlay makefile) with
  | some overlay => pyDrop overlay.length makefile
  | none => makefile

/-- The overlay-search loop of `get_kati_makefiles` (manifest_split.py:292):
try `""` then each overlay in order, keeping the first join that exists;
if none exists the makefile name is left unchanged. -/
def find_makefile (fs : FileSystem) (overlays : List String) (makefile : String) : String :=
  match ("" :: overlays).find? (fun overlay =>
      fs.pathExists (os_path_join2 overlay makefile)) with
  | some overlay => os_path_join2 overlay makefile
  | none => makefile

/-- The per-makefile body of the accumulation loop of `get_kati_makefiles`
(manifest_split.py:290): skip non-existing files, add the overlay-stripped
path, and for symlinks also add the overlay-stripped
`relpath(realpath(...))` of the link. -/
def process_makefile (fs : FileSystem) (overlays : List String)
    (makefile : String) : Finset String :=
  let mf := find_makefile fs overlays makefile
  if fs.pathExists mf then
    if fs.isLink mf then
      {strip_overlay overlays mf, strip_overlay overlays (fs.relpath (fs.realpath mf))}
    else {strip_overlay overlays mf}
  else ∅

/-- `get_kati_makefiles` (manifest_split.py:235).  `kati_raw` is the oracle
output of `ckati_stamp_dump --files` (one line per makefile). -/
def get_kati_makefiles (fs : FileSystem) (kati_raw : List String)
    (overlays : List String) : Finset String :=
  let product_makefiles := ((kati_raw.filter is_product_makefile).map pyNormpath).toFinset
  product_makefiles.biUnion (process_makefile fs overlays)

/-- One record of `module-info.json`.  `path = none` models a missing
`"path"` key; a missing `"class"` key is conflated with an empty list
(both make `ModuleInfo.__init__` die on `["class"][0]`), and likewise for
`"dependencies"` (never absent in the inputs the tool accepts). -/
structure ModuleRecord where
  path : Option (List String)
  cls : List String
  dependencies : List String
deriving DecidableEq

/-- `module_has_valid_path` (manifest_split.py:157): the module has a
nonempty `"path"` whose first entry does not start with `out/`. -/
def module_has_valid_path (r : ModuleRecord) : Bool :=
  match r.path with
  | some (p :: _) => !(pyStartsWith "out/" p)
  | _ => false

/-- Prefix of `_JAVA_LIB_PATTERN` (manifest_split.py:86). -/
def javaLibPre : String := "out/target/common/obj/JAVA_LIBRARIES/"

/-- Suffix of `_JAVA_LIB_PATTERN` (manifest_split.py:86).  The two regex
`.` wildcards in the pattern are modelled as the literal `.` they are meant
to match. -/
def javaLibSuf : String := "_intermediates/classes-header.jar"

/-- `dep_from_raw_dep` (manifest_split.py:179): rewrite a synthetic java
intermediate path to the bare library name captured by the regex group. -/
def dep_from_raw_dep (raw_dep : String) : String :=
  if pyStartsWith javaLibPre raw_dep ∧ pyEndsWith javaLibSuf raw_dep ∧
      javaLibPre.length + javaLibSuf.length < raw_dep.length then
    String.mk ((raw_dep.data.drop javaLibPre.length).take
      (raw_dep.data.length - javaLibPre.length - javaLibSuf.length))
  else raw_dep

/-- The mappings built by `ModuleInfo.__init__` (manifest_split.py:128):
`project_modules` maps a project name to its modules (`none` models a key
absent from the dict), `module_project` maps a module to its owning project
(only valid-path modules are keys), `module_cls` models `module_class`
(every module of `module-info.json` is a key), and `module_deps` gives the
normalized dependency list. -/
structure MI where
  project_modules : String → Option (List String)
  module_project : String → Option String
  module_cls : String → Option String
  module_deps : String → List String

/-- The `module_paths` dict of `ModuleInfo.__init__` (manifest_split.py:161)
as an association list: valid-path modules paired with `path[0]`. -/
def modulePathsOf (module_info : List (String × ModuleRecord)) : List (String × String) :=
  module_info.filterMap (fun entry =>
    match entry.2.path with
    | some (p :: _) => if pyStartsWith "out/" p then none else some (entry.1, p)
    | _ => none)

/-- `ModuleInfo.__init__` (manifest_split.py:131): builds the maps, raising
`ValueError` (modelled by `Except.error`) when a valid-path module's path
resolves to no known project (Python truthiness: `None` or `""`), and dying
(`IndexError`, also `Except.error`) when some module has no class entry. -/
def build_module_info (repo_projects : String → Option String)
    (module_info : List (String × ModuleRecord)) : Except String MI :=
  let module_paths := modulePathsOf module_info
  if module_paths.all (fun mp =>
      match scan_repo_projects repo_projects mp.2 with
      | some q => q != ""
      | none => false) then
    if module_info.all (fun entry => entry.2.cls != []) then
      Except.ok {
        project_modules := fun proj =>
          match (module_paths.filter (fun mp =>
              ((scan_repo_projects repo_projects mp.2).bind repo_projects)
                == some proj)).map Prod.fst with
          | [] => none
          | m :: ms => some (m :: ms),
        module_project := fun m =>
          ((module_paths.lookup m).bind (scan_repo_projects repo_projects)).bind repo_projects,
        module_cls := fun m => (module_info.lookup m).bind (fun r => r.cls.head?),
        module_deps := fun m =>
          match module_info.lookup m with
          | some r => r.dependencies.map dep_from_raw_dep
          | none => [] }
    else Except.error "class index error"
  else Except.error "Unknown module path"

/-- The module graph built from a module-info list, with a vacuous default
in the error case (used to name the built graph in concrete statements). -/
def builtMI (repo_projects : String → Option String)
    (module_info : List (String × ModuleRecord)) : MI :=
  match build_module_info repo_projects module_info with
  | Except.ok mi => mi
  | Except.error _ => ⟨fun _ => none, fun _ => none, fun _ => none, fun _ => []⟩

/-- The state of the closure loop of `create_split_manifest`
(manifest_split.py:471): the retained projects and the already-checked
projects. -/
structure SplitState where
  input_projects : Finset String
  checked_projects : Finset String
deriving DecidableEq

/-- `projects_to_check = input_projects.difference(checked_projects)`. -/
def projects_to_check (st : SplitState) : Finset String :=
  st.input_projects \ st.checked_projects

/-- The modules of one project, empty when the project is not a
`project_modules` key (the `continue` at manifest_split.py:493). -/
def projectModules (mi : MI) (proj : String) : List String :=
  match mi.project_modules proj with
  | some ms => ms
  | none => []

/-- The `modules` list collected by one pass (manifest_split.py:491):
every module of every frontier project, in the loop's iteration order. -/
def passModules (mi : MI) (f : Finset String) : List String :=
  (sortedList f).flatMap (projectModules mi)

/-- One dependency step of `process_deps` (manifest_split.py:483): a
`HEADER_LIBRARIES` dependency adds its owning project when not already
retained; the unguarded `module_project[d]` lookup is a `KeyError`
(`none`) when the dependency is not a `module_project` key. -/
def hdrStep (mi : MI) (input : Finset String) (acc : Option (Finset String))
    (d : String) : Option (Finset String) :=
  acc.bind (fun s =>
    match mi.module_cls d with
    | some c =>
      if c = "HEADER_LIBRARIES" then
        match mi.module_project d with
        | some hla => some (if hla ∈ input then s else insert hla s)
        | none => none
      else some s
    | none => some s)

/-- `process_deps` for one module: the header-library projects it adds to
`deps_additions`, or `none` on an uncaught `KeyError`. -/
def headerDepProjects (mi : MI) (input : Finset String) (m : String) :
    Option (Finset String) :=
  (mi.module_deps m).foldl (hdrStep mi input) (some ∅)

/-- Whether `process_deps` survives dependency `d`: a `HEADER_LIBRARIES`
dependency must be a `module_project` key. -/
def depOk (mi : MI) (d : String) : Bool :=
  match mi.module_cls d with
  | some c => if c = "HEADER_LIBRARIES" then (mi.module_project d).isSome else true
  | none => true

/-- Whether `process_deps` survives every dependency of module `m`. -/
def depsOk (mi : MI) (m : String) : Bool := (mi.module_deps m).all (depOk mi)

/-- The owning project of a `HEADER_LIBRARIES` dependency, when any. -/
def hdrPick (mi : MI) (d : String) : Option String :=
  match mi.module_cls d with
  | some c => if c = "HEADER_LIBRARIES" then mi.module_project d else none
  | none => none

/-- All header-library projects reachable from module `m`'s dependency
list, ignoring the retained-set filter. -/
def hdrProjects (mi : MI) (m : String) : Finset String :=
  ((mi.module_deps m).filterMap (hdrPick mi)).toFinset

/-- Union of `hdrProjects` over a module list. -/
def hdrUnion (mi : MI) (modules : List String) : Finset String :=
  modules.foldr (fun m s => hdrProjects mi m ∪ s) ∅

/-- One module step of the `deps_additions` accumulation. -/
def daStep (mi : MI) (input : Finset String) (acc : Option (Finset String))
    (m : String) : Option (Finset String) :=
  acc.bind (fun s => (headerDepProjects mi input m).map (fun t => s ∪ t))

/-- The `deps_additions` set collected by one pass over `modules`, or
`none` when `process_deps` raised. -/
def depsAdditions (mi : MI) (input : Finset String) (modules : List String) :
    Option (Finset String) :=
  modules.foldl (daStep mi input) (some ∅)

/-- The "adjacent" projects of a module list (manifest_split.py:507):
project names of the filtered ninja inputs of those modules. -/
def adjacentProjects (repo_projects : String → Option String)
    (ninja_tool : List String → List String) (modules : List String) : Finset String :=
  get_input_projects repo_projects (get_ninja_inputs ninja_tool modules)

/-- One pass of the closure loop (manifest_split.py:477-517): collect the
frontier's modules, mark the frontier checked, add `deps_additions` and the
adjacent projects to the retained set; `none` when `process_deps` raised. -/
def splitStep (mi : MI) (repo_projects : String → Option String)
    (ninja_tool : List String → List String) (st : SplitState) : Option SplitState :=
  let modules := passModules mi (projects_to_check st)
  (depsAdditions mi st.input_projects modules).map (fun da =>
    { input_projects := (st.input_projects ∪ da) ∪
        adjacentProjects repo_projects ninja_tool modules,
      checked_projects := st.checked_projects ∪ projects_to_check st })

/-- The closure loop `while projects_to_check:` with an explicit pass bound:
`fuel` passes are attempted, stopping early once the frontier is empty.
`none` models the loop dying on the uncaught exception of `process_deps`. -/
def splitLoop (mi : MI) (repo_projects : String → Option String)
    (ninja_tool : List String → List String) : Nat → SplitState → Option SplitState
  | 0, st => some st
  | fuel + 1, st =>
    if projects_to_check st = ∅ then some st
    else (splitStep mi repo_projects ninja_tool st).bind
      (splitLoop mi repo_projects ninja_tool fuel)

/-- One manifest XML element: its tag and attribute list (the children of
the manifest root; `project` elements carry a `name` attribute). -/
structure XmlElem where
  tag : String
  attrib : List (String × String)
deriving DecidableEq

/-- The keep condition of `update_manifest` (manifest_split.py:368): a
non-`project` element is untouched; a `project` element stays iff its name
is in `input_projects.difference(remove_projects)`.  A nameless `project`
element is a `KeyError` in the source; `update_manifest` guards for it. -/
def keepElem (input_projects remove_projects : Finset String) (c : XmlElem) : Bool :=
  if c.tag = "project" then
    match c.attrib.lookup "name" with
    | some n => decide (n ∈ input_projects \ remove_projects)
    | none => false
  else true

/-- Every `project` child carries a `name` attribute (otherwise
`update_manifest` dies with `KeyError`). -/
def projectsNamed (children : List XmlElem) : Bool :=
  children.all (fun c => (c.tag != "project") || (c.attrib.lookup "name").isSome)

/-- `update_manifest` (manifest_split.py:354) on the root's child list:
removes every `project` child whose name is not in
`input_projects - remove_projects`; `none` models the `KeyError` on a
nameless `project` element. -/
def update_manifest (children : List XmlElem)
    (input_projects remove_projects : Finset String) : Option (List XmlElem) :=
  if projectsNamed children then
    some (children.filter (keepElem input_projects remove_projects))
  else none

/-- `create_manifest_sha1_element` (manifest_split.py:374); `sha1` is the
oracle for `hashlib.sha1(ET.tostring(...))`. -/
def create_manifest_sha1_element (sha1 : List XmlElem → String)
    (children : List XmlElem) (nm : String) : XmlElem :=
  ⟨"hash", [("type", "sha1"), ("name", nm), ("value", sha1 children)]⟩

/-- `create_split_manifest` (manifest_split.py:404) from the point where the
override sets are known: seed the retained set from the direct ninja inputs
of the targets, the kati makefiles and the add-overrides, subtract the
remove-overrides, run the closure loop, filter the manifest, and append the
two sha1 hash elements ("original" first, then "self" over the already
extended list). -/
def create_split_manifest_model (repo_projects : String → Option String) (mi : MI)
    (ninja_tool : List String → List String) (fs : FileSystem) (kati_raw : List String)
    (overlays : List String) (sha1 : List XmlElem → String)
    (targets : List String) (add_projects remove_projects : Finset String)
    (manifest : List XmlElem) (fuel : Nat) : Option (List XmlElem) :=
  let inputs := get_ninja_inputs ninja_tool targets
  let direct_projects := get_input_projects repo_projects inputs
  let kati_makefiles := get_kati_makefiles fs kati_raw overlays
  let kati_projects := get_input_projects repo_projects kati_makefiles
  let seeded := ((direct_projects ∪ kati_projects) ∪ add_projects) \ remove_projects
  (splitLoop mi repo_projects ninja_tool fuel ⟨seeded, ∅⟩).bind (fun stF =>
    (update_manifest manifest stF.input_projects remove_projects).map (fun kept =>
      let original_sha1 := create_manifest_sha1_element sha1 manifest "original"
      let with_original := kept ++ [original_sha1]
      with_original ++ [create_manifest_sha1_element sha1 with_original "self"]))

/-- Membership in the determinized iteration order is set membership. -/
lemma mem_sortedList (s : Finset String) (x : String) : x ∈ sortedList s ↔ x ∈ s := by
  rcases s with ⟨m, nd⟩
  induction m using Quotient.inductionOn with
  | h l =>
    show x ∈ List.insertionSort _ l ↔ _
    rw [(List.perm_insertionSort _ l).mem_iff]
    simp [Finset.mem_mk]

/-- A successful `findSome?` over a descending index range returns the value
at the largest index with a hit, and every larger index misses. -/
lemma findSome_rev_range_some {α : Type} (f : Nat → Option α) (n : Nat) (b : α)
    (h : (List.range n).reverse.findSome? f = some b) :
    ∃ k, k < n ∧ f k = some b ∧ ∀ j, k < j → j < n → f j = none := by
  induction n with
  | zero => simp [List.findSome?] at h
  | succ n ih =>
    rw [List.range_succ, List.reverse_append] at h
    simp only [List.reverse_singleton, List.singleton_append, List.findSome?] at h
    cases hf : f n with
    | some c =>
      rw [hf] at h
      refine ⟨n, Nat.lt_succ_self n, ?_, ?_⟩
      · rw [hf]; exact h
      · intro j hj1 hj2; omega
    | none =>
      rw [hf] at h
      obtain ⟨k, hk, hfk, hnone⟩ := ih h
      refine ⟨k, by omega, hfk, ?_⟩
      intro j hj1 hj2
      rcases Nat.lt_or_ge j n with hlt | hge
      · exact hnone j hj1 hlt
      · have : j = n := by omega
        rw [this]; exact hf

/-- A failing `findSome?` over a descending index range misses everywhere. -/
lemma findSome_rev_range_none {α : Type} (f : Nat → Option α) (n : Nat)
    (h : (List.range n).reverse.findSome? f = none) :
    ∀ k, k < n → f k = none := by
  induction n with
  | zero => intro k hk; omega
  | succ n ih =>
    rw [List.range_succ, List.reverse_append] at h
    simp only [List.reverse_singleton, List.singleton_append, List.findSome?] at h
    cases hf : f n with
    | some c => rw [hf] at h; exact absurd h (by simp)
    | none =>
      rw [hf] at h
      intro k hk
      rcases Nat.lt_or_ge k n with hlt | hge
      · exact ih h k hlt
      · have : k = n := by omega
        rw [this]; exact hf

/-- Claim C5: `scan_repo_projects` splits the path into '/'-delimited
segments, tests prefixes from full length down to length 1, returns the
first (hence longest) prefix that is a known project path, and returns
`none` when no prefix matches; with projects `a` and `a/b` the input path
`a/b/c/file` resolves to `a/b`. -/
theorem claim_c5_longest_match :
    (∀ (repo_projects : String → Option String) (input_path : String),
      (∀ q, scan_repo_projects repo_projects input_path = some q →
        ∃ k, k < (pySplit '/' input_path).length ∧
          q = os_path_join ((pySplit '/' input_path).take (k + 1)) ∧
          (repo_projects q).isSome = true ∧
          ∀ j, k < j → j < (pySplit '/' input_path).length →
            repo_projects (os_path_join ((pySplit '/' input_path).take (j + 1))) = none) ∧
      (scan_repo_projects repo_projects input_path = none →
        ∀ k, k < (pySplit '/' input_path).length →
          repo_projects (os_path_join ((pySplit '/' input_path).take (k + 1))) = none)) ∧
    scan_repo_projects (fun p => if p = "a" ∨ p = "a/b" then some p else none) "a/b/c/file"
      = some "a/b" := by
  constructor
  · intro repo_projects input_path
    constructor
    · intro q h
      have h' : (List.range (pySplit '/' input_path).length).reverse.findSome?
          (fun index =>
            if (repo_projects (os_path_join ((pySplit '/' input_path).take (index + 1)))).isSome
            then some (os_path_join ((pySplit '/' input_path).take (index + 1)))
            else none) = some q := h
      obtain ⟨k, hk, hfk, hnone⟩ := findSome_rev_range_some _ _ _ h'
      by_cases hq :
          (repo_projects (os_path_join ((pySplit '/' input_path).take (k + 1)))).isSome = true
      · rw [if_pos hq] at hfk
        have hq2 := Option.some.inj hfk
        refine ⟨k, hk, hq2.symm, by rw [← hq2]; exact hq, ?_⟩
        intro j hj1 hj2
        have hj := hnone j hj1 hj2
        by_cases hj' :
            (repo_projects (os_path_join ((pySplit '/' input_path).take (j + 1)))).isSome = true
        · rw [if_pos hj'] at hj; exact absurd hj (by simp)
        · exact Option.not_isSome_iff_eq_none.mp hj'
      · rw [if_neg hq] at hfk
        exact absurd hfk (by simp)
    · intro h k hk
      have h' : (List.range (pySplit '/' input_path).length).reverse.findSome?
          (fun index =>
            if (repo_projects (os_path_join ((pySplit '/' input_path).take (index + 1)))).isSome
            then some (os_path_join ((pySplit '/' input_path).take (index + 1)))
            else none) = none := h
      have hj := findSome_rev_range_none _ _ h' k hk
      by_cases hj' :
          (repo_projects (os_path_join ((pySplit '/' input_path).take (k + 1)))).isSome = true
      · rw [if_pos hj'] at hj; exact absurd hj (by simp)
      · exact Option.not_isSome_iff_eq_none.mp hj'
  · decide

/-- Claim C7: every path returned by `get_ninja_inputs` avoids the bare
license-marker suffix `MODULE_LICENSE_GPL`, and carries the test-manifest
suffix `TEST_MAPPING` only when the caller's module list explicitly asks
for the `test_mapping` target. -/
theorem claim_c7_ninja_filter (ninja_tool : List String → List String)
    (modules : List String) (path : String)
    (h : path ∈ get_ninja_inputs ninja_tool modules) :
    pyEndsWith "MODULE_LICENSE_GPL" path = false ∧
      (pyEndsWith "TEST_MAPPING" path = true → modules.contains "test_mapping" = true) := by
  unfold get_ninja_inputs at h
  rw [Finset.mem_image] at h
  obtain ⟨q, hq, hstrip⟩ := h
  rw [Finset.mem_filter] at hq
  obtain ⟨-, hallow⟩ := hq
  subst hstrip
  have hallow' : (if (pyEndsWith "TEST_MAPPING" (pyStrip q) &&
        !(modules.contains "test_mapping")) = true then ""
      else if pyEndsWith "MODULE_LICENSE_GPL" (pyStrip q) = true then ""
      else pyStrip q) ≠ "" := hallow
  by_cases h1 : (pyEndsWith "TEST_MAPPING" (pyStrip q) &&
      !(modules.contains "test_mapping")) = true
  · rw [if_pos h1] at hallow'
    exact absurd rfl hallow'
  · rw [if_neg h1] at hallow'
    by_cases h2 : pyEndsWith "MODULE_LICENSE_GPL" (pyStrip q) = true
    · rw [if_pos h2] at hallow'
      exact absurd rfl hallow'
    · refine ⟨by simpa using h2, ?_⟩
      intro htm
      by_cases hc : modules.contains "test_mapping" = true
      · exact hc
      · have hc' : modules.contains "test_mapping" = false := by simpa using hc
        exact absurd (by rw [htm, hc']; rfl) h1

/-- Witness for claim C7 at a concrete oracle and module list. -/
theorem claim_c7_ninja_filter_witness :
    "vendor/x/f.c" ∈ get_ninja_inputs (fun _ => ["vendor/x/f.c"]) ["m"] ∧
      pyEndsWith "MODULE_LICENSE_GPL" "vendor/x/f.c" = false ∧
      (pyEndsWith "TEST_MAPPING" "vendor/x/f.c" = true → ["m"].contains "test_mapping" = true) :=
  ⟨by decide, claim_c7_ninja_filter (fun _ => ["vendor/x/f.c"]) ["m"] "vendor/x/f.c" (by decide)⟩

/-- Claim C8: a product makefile that is found (possibly through an overlay)
and is a symbolic link contributes both its own overlay-stripped path and
the link target's real, overlay-stripped path to the result of
`get_kati_makefiles`; resolving those paths to projects then retains both
the symlink's project and the target's project. -/
theorem claim_c8_symlink_retention (fs : FileSystem) (kati_raw : List String)
    (overlays : List String) (m : String)
    (hm : m ∈ kati_raw) (hprod : is_product_makefile m = true)
    (hex : fs.pathExists (find_makefile fs overlays (pyNormpath m)) = true)
    (hlink : fs.isLink (find_makefile fs overlays (pyNormpath m)) = true) :
    strip_overlay overlays (find_makefile fs overlays (pyNormpath m))
        ∈ get_kati_makefiles fs kati_raw overlays ∧
      strip_overlay overlays
          (fs.relpath (fs.realpath (find_makefile fs overlays (pyNormpath m))))
        ∈ get_kati_makefiles fs kati_raw overlays := by
  have hmem : pyNormpath m ∈ ((kati_raw.filter is_product_makefile).map pyNormpath).toFinset := by
    rw [List.mem_toFinset, List.mem_map]
    exact ⟨m, List.mem_filter.mpr ⟨hm, hprod⟩, rfl⟩
  have hproc : process_makefile fs overlays (pyNormpath m) =
      {strip_overlay overlays (find_makefile fs overlays (pyNormpath m)),
        strip_overlay overlays
          (fs.relpath (fs.realpath (find_makefile fs overlays (pyNormpath m))))} := by
    simp only [process_makefile]
    rw [hex, hlink]
    simp
  have hsub : process_makefile fs overlays (pyNormpath m) ⊆
      get_kati_makefiles fs kati_raw overlays := by
    intro x hx
    exact Finset.mem_biUnion.mpr ⟨pyNormpath m, hmem, hx⟩
  constructor
  · exact hsub (by rw [hproc]; exact Finset.mem_insert_self _ _)
  · exact hsub (by rw [hproc]; exact Finset.mem_insert_of_mem (Finset.mem_singleton_self _))

/-- Witness for claim C8: a makefile in `vendor/a` that is a symlink to a
file under `vendor/b`; both paths land in the result set. -/
theorem claim_c8_symlink_retention_witness :
    "vendor/a/product.mk" ∈ get_kati_makefiles
        ⟨fun p => p == "vendor/a/product.mk", fun p => p == "vendor/a/product.mk",
          fun _ => "/src/vendor/b/real.mk", fun _ => "vendor/b/real.mk"⟩
        ["vendor/a/product.mk"] [] ∧
      "vendor/b/real.mk" ∈ get_kati_makefiles
        ⟨fun p => p == "vendor/a/product.mk", fun p => p == "vendor/a/product.mk",
          fun _ => "/src/vendor/b/real.mk", fun _ => "vendor/b/real.mk"⟩
        ["vendor/a/product.mk"] [] := by
  have h := claim_c8_symlink_retention
    ⟨fun p => p == "vendor/a/product.mk", fun p => p == "vendor/a/product.mk",
      fun _ => "/src/vendor/b/real.mk", fun _ => "vendor/b/real.mk"⟩
    ["vendor/a/product.mk"] [] "vendor/a/product.mk"
    (by decide) (by decide) (by decide) (by decide)
  exact ⟨h.1, h.2⟩

/-- On success, `update_manifest` returns exactly the `keepElem` filter of
the children, and every project child was named. -/
lemma update_manifest_keep (children : List XmlElem) (inp rem : Finset String)
    (out : List XmlElem) (h : update_manifest children inp rem = some out) :
    out = children.filter (keepElem inp rem) ∧ projectsNamed children = true := by
  unfold update_manifest at h
  by_cases hg : projectsNamed children = true
  · rw [if_pos hg] at h
    exact ⟨(Option.some.inj h).symm, hg⟩
  · rw [if_neg hg] at h
    exact absurd h (by simp)

/-- `keepElem` holds iff a project element's name survives the set
difference; non-project elements always pass. -/
lemma keepElem_iff (inp rem : Finset String) (c : XmlElem)
    (hn : c.tag = "project" → (c.attrib.lookup "name").isSome = true) :
    keepElem inp rem c = true ↔
      (c.tag = "project" → ∃ n, c.attrib.lookup "name" = some n ∧ n ∈ inp ∧ n ∉ rem) := by
  unfold keepElem
  by_cases ht : c.tag = "project"
  · rw [if_pos ht]
    cases hl : c.attrib.lookup "name" with
    | none =>
      have hs := hn ht
      rw [hl] at hs
      simp at hs
    | some n => simp [ht, hl, Finset.mem_sdiff]
  · rw [if_neg ht]
    simp [ht]

/-- Claim C9: on the manifest's child list, `update_manifest` keeps a
project element iff its name is in `input_projects - remove_projects`, and
alters nothing else: the output is a sublist of the original children (so
every kept element, project or not, is the original element with all its
attributes, in the original order), and membership in the output is exactly
the keep condition. -/
theorem claim_c9_manifest_frame (children : List XmlElem)
    (input_projects remove_projects : Finset String) (out : List XmlElem)
    (h : update_manifest children input_projects remove_projects = some out) :
    out.Sublist children ∧
      ∀ c ∈ children, (c ∈ out ↔ (c.tag = "project" →
        ∃ n, c.attrib.lookup "name" = some n ∧
          n ∈ input_projects ∧ n ∉ remove_projects)) := by
  obtain ⟨hout, hg⟩ := update_manifest_keep _ _ _ _ h
  subst hout
  constructor
  · exact List.filter_sublist _
  · intro c hc
    have hn : c.tag = "project" → (c.attrib.lookup "name").isSome = true := by
      intro ht
      have hall := (List.all_eq_true.mp hg) c hc
      simpa [ht] using hall
    rw [List.mem_filter]
    simp only [hc, true_and]
    exact keepElem_iff _ _ c hn

/-- Witness for claim C9 on a concrete three-element manifest. -/
theorem claim_c9_manifest_frame_witness :
    (([⟨"project", [("name", "p")]⟩, ⟨"remote", [("fetch", "f")]⟩] : List XmlElem).Sublist
        [⟨"project", [("name", "p")]⟩, ⟨"project", [("name", "q")]⟩,
          ⟨"remote", [("fetch", "f")]⟩]) ∧
      ∀ c ∈ ([⟨"project", [("name", "p")]⟩, ⟨"project", [("name", "q")]⟩,
          ⟨"remote", [("fetch", "f")]⟩] : List XmlElem),
        (c ∈ ([⟨"project", [("name", "p")]⟩, ⟨"remote", [("fetch", "f")]⟩] : List XmlElem) ↔
          (c.tag = "project" → ∃ n, c.attrib.lookup "name" = some n ∧
            n ∈ ({"p", "q"} : Finset String) ∧ n ∉ ({"q"} : Finset String))) :=
  claim_c9_manifest_frame
    [⟨"project", [("name", "p")]⟩, ⟨"project", [("name", "q")]⟩, ⟨"remote", [("fetch", "f")]⟩]
    {"p", "q"} {"q"} [⟨"project", [("name", "p")]⟩, ⟨"remote", [("fetch", "f")]⟩] (by decide)

/-- Claim C1: a project in the remove-override set (in particular one that
is also in the add set) never appears as a project element of the final
split manifest, whatever the module graph and the external oracles do
during the iterative phase: `update_manifest` subtracts the remove set
again at finalization. -/
theorem claim_c1_removal_precedence
    (repo_projects : String → Option String) (mi : MI)
    (ninja_tool : List String → List String) (fs : FileSystem) (kati_raw : List String)
    (overlays : List String) (sha1 : List XmlElem → String)
    (targets : List String) (add_projects remove_projects : Finset String)
    (manifest : List XmlElem) (fuel : Nat) (p : String)
    (hadd : p ∈ add_projects) (hrem : p ∈ remove_projects)
    (out : List XmlElem)
    (h : create_split_manifest_model repo_projects mi ninja_tool fs kati_raw overlays sha1
        targets add_projects remove_projects manifest fuel = some out) :
    ∀ c ∈ out, ¬ (c.tag = "project" ∧ c.attrib.lookup "name" = some p) := by
  simp only [create_split_manifest_model] at h
  rw [Option.bind_eq_some] at h
  obtain ⟨stF, hloop, h2⟩ := h
  rw [Option.map_eq_some'] at h2
  obtain ⟨kept, hupd, hout⟩ := h2
  obtain ⟨hkept, -⟩ := update_manifest_keep _ _ _ _ hupd
  rintro c hc ⟨htag, hname⟩
  rw [← hout] at hc
  rw [List.mem_append] at hc
  rcases hc with hc | hc
  · rw [List.mem_append] at hc
    rcases hc with hc | hc
    · rw [hkept, List.mem_filter] at hc
      have hkeep := hc.2
      unfold keepElem at hkeep
      rw [if_pos htag, hname] at hkeep
      have hp : p ∈ stF.input_projects \ remove_projects := of_decide_eq_true hkeep
      exact (Finset.mem_sdiff.mp hp).2 hrem
    · rw [List.mem_singleton] at hc
      subst hc
      have hh : ("hash" : String) = "project" := htag
      exact absurd hh (by decide)
  · rw [List.mem_singleton] at hc
    subst hc
    have hh : ("hash" : String) = "project" := htag
    exact absurd hh (by decide)

/-- Witness for claim C1: the project `p` is both added and removed; the
surviving `remote` element of the concrete final manifest is not a project
element named `p`. -/
theorem claim_c1_removal_precedence_witness :
    ¬ ((⟨"remote", []⟩ : XmlElem).tag = "project" ∧
      (⟨"remote", []⟩ : XmlElem).attrib.lookup "name" = some "p") :=
  claim_c1_removal_precedence (fun _ => none)
    ⟨fun _ => none, fun _ => none, fun _ => none, fun _ => []⟩
    (fun _ => []) ⟨fun _ => false, fun _ => false, fun s => s, fun s => s⟩ [] []
    (fun _ => "h") ["droid"] {"p"} {"p"}
    [⟨"project", [("name", "p")]⟩, ⟨"remote", []⟩] 1 "p" (by decide) (by decide)
    [⟨"remote", []⟩,
      ⟨"hash", [("type", "sha1"), ("name", "original"), ("value", "h")]⟩,
      ⟨"hash", [("type", "sha1"), ("name", "self"), ("value", "h")]⟩] (by decide)
    ⟨"remote", []⟩ (by decide)

/-- A raised `KeyError` propagates through the rest of `process_deps`. -/
lemma hdrFold_none (mi : MI) (input : Finset String) (l : List String) :
    l.foldl (hdrStep mi input) none = none := by
  induction l with
  | nil => rfl
  | cons d l ih => exact ih

/-- Normal form of `process_deps` for one module-dependency list: it either
dies on a `HEADER_LIBRARIES` dependency without a project, or returns the
header projects collected so far plus the list's header projects not yet
retained. -/
lemma hdrFold_eq (mi : MI) (input : Finset String) :
    ∀ (l : List String) (acc : Finset String),
      l.foldl (hdrStep mi input) (some acc) =
        if l.all (depOk mi) then
          some (acc ∪ ((l.filterMap (hdrPick mi)).toFinset \ input))
        else none := by
  intro l
  induction l with
  | nil =>
    intro acc
    simp [List.all_nil, Finset.empty_sdiff]
  | cons d l ih =>
    intro acc
    rw [List.foldl_cons, List.all_cons]
    cases hcls : mi.module_cls d with
    | none =>
      have hstep : hdrStep mi input (some acc) d = some acc := by
        simp [hdrStep, hcls]
      have hok : depOk mi d = true := by simp [depOk, hcls]
      have hpick : hdrPick mi d = none := by simp [hdrPick, hcls]
      rw [hstep, ih acc, hok, List.filterMap_cons, hpick]
      simp only [Bool.true_and]
    | some c =>
      by_cases hc : c = "HEADER_LIBRARIES"
      · subst hc
        cases hproj : mi.module_project d with
        | none =>
          have hstep : hdrStep mi input (some acc) d = none := by
            simp [hdrStep, hcls, hproj]
          have hok : depOk mi d = false := by simp [depOk, hcls, hproj]
          rw [hstep, hdrFold_none, hok]
          simp
        | some hla =>
          have hstep : hdrStep mi input (some acc) d =
              some (if hla ∈ input then acc else insert hla acc) := by
            simp [hdrStep, hcls, hproj]
          have hok : depOk mi d = true := by simp [depOk, hcls, hproj]
          have hpick : hdrPick mi d = some hla := by simp [hdrPick, hcls, hproj]
          rw [hstep, ih, hok, List.filterMap_cons, hpick]
          simp only [Bool.true_and]
          by_cases hall : l.all (depOk mi) = true
          · rw [if_pos hall, if_pos hall]
            have hacc : (if hla ∈ input then acc else insert hla acc) =
                acc ∪ ({hla} \ input) := by
              by_cases hin : hla ∈ input
              · rw [if_pos hin]
                have hempty : ({hla} : Finset String) \ input = ∅ := by
                  rw [Finset.sdiff_eq_empty_iff_subset]
                  simpa using hin
                rw [hempty, Finset.union_empty]
              · rw [if_neg hin]
                have hid : ({hla} : Finset String) \ input = {hla} := by
                  ext x
                  simp only [Finset.mem_sdiff, Finset.mem_singleton]
                  constructor
                  · rintro ⟨hx, -⟩; exact hx
                  · rintro rfl; exact ⟨rfl, hin⟩
                rw [hid, Finset.insert_eq, Finset.union_comm]
            congr 1
            rw [hacc, List.toFinset_cons, Finset.insert_eq,
              Finset.union_sdiff_distrib, ← Finset.union_assoc]
          · rw [if_neg hall, if_neg hall]
      · have hstep : hdrStep mi input (some acc) d = some acc := by
          simp [hdrStep, hcls, hc]
        have hok : depOk mi d = true := by simp [depOk, hcls, hc]
        have hpick : hdrPick mi d = none := by simp [hdrPick, hcls, hc]
        rw [hstep, ih acc, hok, List.filterMap_cons, hpick]
        simp only [Bool.true_and]

/-- `process_deps` on one module, in normal form. -/
lemma headerDepProjects_eq (mi : MI) (input : Finset String) (m : String) :
    headerDepProjects mi input m =
      if depsOk mi m then some (hdrProjects mi m \ input) else none := by
  unfold headerDepProjects depsOk hdrProjects
  rw [hdrFold_eq]
  by_cases h : (mi.module_deps m).all (depOk mi) = true
  · rw [if_pos h, if_pos h, Finset.empty_union]
  · rw [if_neg h, if_neg h]

/-- A raised `KeyError` propagates through the rest of the pass. -/
lemma daFold_none (mi : MI) (input : Finset String) (l : List String) :
    l.foldl (daStep mi input) none = none := by
  induction l with
  | nil => rfl
  | cons m l ih => exact ih

/-- Normal form of the `deps_additions` accumulation over a module list. -/
lemma daFold_eq (mi : MI) (input : Finset String) :
    ∀ (l : List String) (acc : Finset String),
      l.foldl (daStep mi input) (some acc) =
        if l.all (depsOk mi) then some (acc ∪ (hdrUnion mi l \ input)) else none := by
  intro l
  induction l with
  | nil =>
    intro acc
    simp [hdrUnion, Finset.empty_sdiff]
  | cons m l ih =>
    intro acc
    rw [List.foldl_cons, List.all_cons]
    have hcons : hdrUnion mi (m :: l) = hdrProjects mi m ∪ hdrUnion mi l := rfl
    by_cases hm : depsOk mi m = true
    · have hstep : daStep mi input (some acc) m =
          some (acc ∪ (hdrProjects mi m \ input)) := by
        simp [daStep, headerDepProjects_eq, hm]
      rw [hstep, ih, hm]
      simp only [Bool.true_and]
      by_cases hall : l.all (depsOk mi) = true
      · rw [if_pos hall, if_pos hall]
        congr 1
        rw [hcons, Finset.union_sdiff_distrib, Finset.union_assoc]
      · rw [if_neg hall, if_neg hall]
    · have hstep : daStep mi input (some acc) m = none := by
        simp [daStep, headerDepProjects_eq, hm]
      rw [hstep, daFold_none]
      simp [hm]

/-- The `deps_additions` set of one pass, in normal form. -/
lemma depsAdditions_eq (mi : MI) (input : Finset String) (modules : List String) :
    depsAdditions mi input modules =
      if modules.all (depsOk mi) then some (hdrUnion mi modules \ input) else none := by
  unfold depsAdditions
  rw [daFold_eq]
  by_cases h : modules.all (depsOk mi) = true
  · rw [if_pos h, if_pos h, Finset.empty_union]
  · rw [if_neg h, if_neg h]

/-- One pass of the closure loop, in normal form. -/
lemma splitStep_eq (mi : MI) (repo_projects : String → Option String)
    (ninja_tool : List String → List String) (st : SplitState) :
    splitStep mi repo_projects ninja_tool st =
      if (passModules mi (projects_to_check st)).all (depsOk mi) then
        some ⟨(st.input_projects ∪
            (hdrUnion mi (passModules mi (projects_to_check st)) \ st.input_projects)) ∪
            adjacentProjects repo_projects ninja_tool (passModules mi (projects_to_check st)),
          st.checked_projects ∪ projects_to_check st⟩
      else none := by
  simp only [splitStep]
  rw [depsAdditions_eq]
  by_cases h : (passModules mi (projects_to_check st)).all (depsOk mi) = true
  · rw [if_pos h, if_pos h, Option.map_some']
  · rw [if_neg h, if_neg h, Option.map_none']

/-- Claim C2: one pass of the closure loop only ever adds projects: when the
pass completes, the retained set after it contains the retained set before
it. -/
theorem claim_c2_monotonic (mi : MI) (repo_projects : String → Option String)
    (ninja_tool : List String → List String) (st st' : SplitState)
    (h : splitStep mi repo_projects ninja_tool st = some st') :
    st.input_projects ⊆ st'.input_projects := by
  rw [splitStep_eq] at h
  by_cases hall : (passModules mi (projects_to_check st)).all (depsOk mi) = true
  · rw [if_pos hall] at h
    have hst := Option.some.inj h
    rw [← hst]
    exact Finset.subset_union_left.trans Finset.subset_union_left
  · rw [if_neg hall] at h
    exact absurd h (by simp)

/-- Witness for claim C2 on a concrete one-project state. -/
theorem claim_c2_monotonic_witness :
    (⟨{"p"}, ∅⟩ : SplitState).input_projects ⊆
      (⟨{"p"}, {"p"}⟩ : SplitState).input_projects :=
  claim_c2_monotonic ⟨fun _ => none, fun _ => none, fun _ => none, fun _ => []⟩
    (fun _ => none) (fun _ => []) ⟨{"p"}, ∅⟩ ⟨{"p"}, {"p"}⟩ (by decide)

/-- The header projects of one module all come from `module_project`. -/
lemma hdrProjects_subset_of (mi : MI) (U : Finset String)
    (hmp : ∀ d p, mi.module_project d = some p → p ∈ U) (m : String) :
    hdrProjects mi m ⊆ U := by
  intro x hx
  unfold hdrProjects at hx
  rw [List.mem_toFinset, List.mem_filterMap] at hx
  obtain ⟨d, -, hpick⟩ := hx
  unfold hdrPick at hpick
  cases hcls : mi.module_cls d with
  | none => rw [hcls] at hpick; exact absurd hpick (by simp)
  | some c =>
    rw [hcls] at hpick
    have hpick' : (if c = "HEADER_LIBRARIES" then mi.module_project d else none) = some x :=
      hpick
    by_cases hc : c = "HEADER_LIBRARIES"
    · rw [if_pos hc] at hpick'
      exact hmp d x hpick'
    · rw [if_neg hc] at hpick'
      exact absurd hpick' (by simp)

/-- `hdrUnion` is bounded by any bound of its members. -/
lemma hdrUnion_subset {mi : MI} {l : List String} {S : Finset String}
    (h : ∀ m ∈ l, hdrProjects mi m ⊆ S) : hdrUnion mi l ⊆ S := by
  induction l with
  | nil => simp [hdrUnion]
  | cons m l ih =>
    have hc : hdrUnion mi (m :: l) = hdrProjects mi m ∪ hdrUnion mi l := rfl
    rw [hc]
    exact Finset.union_subset (h m (by simp)) (ih (fun x hx => h x (by simp [hx])))

/-- Each member contributes its header projects to `hdrUnion`. -/
lemma hdrProjects_subset_hdrUnion {mi : MI} {l : List String} {m : String}
    (hm : m ∈ l) : hdrProjects mi m ⊆ hdrUnion mi l := by
  induction l with
  | nil => cases hm
  | cons a l ih =>
    have hc : hdrUnion mi (a :: l) = hdrProjects mi a ∪ hdrUnion mi l := rfl
    rw [hc]
    rcases List.mem_cons.mp hm with rfl | hm'
    · exact Finset.subset_union_left
    · exact (ih hm').trans Finset.subset_union_right

/-- Every project name produced by `get_input_projects` is a value of the
repo-projects table. -/
lemma get_input_projects_subset (repo_projects : String → Option String) (U : Finset String)
    (hrepo : ∀ s n, repo_projects s = some n → n ∈ U) (I : Finset String) :
    get_input_projects repo_projects I ⊆ U := by
  intro x hx
  unfold get_input_projects at hx
  rw [Finset.mem_biUnion] at hx
  obtain ⟨path, -, hx⟩ := hx
  rw [Option.mem_toFinset, Option.mem_def, Option.bind_eq_some] at hx
  obtain ⟨pp, -, hr⟩ := hx
  exact hrepo pp x hr

/-- Membership in the collected pass modules. -/
lemma mem_passModules {mi : MI} {f : Finset String} {m : String} :
    m ∈ passModules mi f ↔ ∃ p ∈ f, m ∈ projectModules mi p := by
  unfold passModules
  rw [List.mem_flatMap]
  constructor
  · rintro ⟨p, hp, hm⟩
    exact ⟨p, (mem_sortedList f p).mp hp, hm⟩
  · rintro ⟨p, hp, hm⟩
    exact ⟨p, (mem_sortedList f p).mpr hp, hm⟩

/-- A completed pass keeps the retained set inside the universe of known
project names (values of `module_project` and of the repo table). -/
lemma splitStep_invariant (mi : MI) (repo_projects : String → Option String)
    (ninja_tool : List String → List String) (U : Finset String)
    (hmp : ∀ d p, mi.module_project d = some p → p ∈ U)
    (hrepo : ∀ s n, repo_projects s = some n → n ∈ U)
    (st st' : SplitState) (hin : st.input_projects ⊆ U)
    (h : splitStep mi repo_projects ninja_tool st = some st') :
    st'.input_projects ⊆ U := by
  rw [splitStep_eq] at h
  by_cases hall : (passModules mi (projects_to_check st)).all (depsOk mi) = true
  · rw [if_pos hall] at h
    have hst := Option.some.inj h
    rw [← hst]
    refine Finset.union_subset (Finset.union_subset hin ?_) ?_
    · exact Finset.sdiff_subset.trans
        (hdrUnion_subset (fun m _ => hdrProjects_subset_of mi U hmp m))
    · exact get_input_projects_subset repo_projects U hrepo _
  · rw [if_neg hall] at h
    exact absurd h (by simp)

/-- A completed pass marks exactly the frontier as checked. -/
lemma splitStep_checked (mi : MI) (repo_projects : String → Option String)
    (ninja_tool : List String → List String) (st st' : SplitState)
    (h : splitStep mi repo_projects ninja_tool st = some st') :
    st'.checked_projects = st.checked_projects ∪ projects_to_check st := by
  rw [splitStep_eq] at h
  by_cases hall : (passModules mi (projects_to_check st)).all (depsOk mi) = true
  · rw [if_pos hall] at h
    rw [← Option.some.inj h]
  · rw [if_neg hall] at h
    exact absurd h (by simp)

/-- Core of the convergence bound: if the retained set lives in a universe
`U` and at most `fuel` unchecked universe elements remain, then `fuel`
passes reach an empty frontier (whenever the loop does not die on the
`process_deps` exception). -/
lemma splitLoop_term_aux (mi : MI) (repo_projects : String → Option String)
    (ninja_tool : List String → List String) (U : Finset String)
    (hmp : ∀ d p, mi.module_project d = some p → p ∈ U)
    (hrepo : ∀ s n, repo_projects s = some n → n ∈ U) :
    ∀ (fuel : Nat) (st : SplitState), st.input_projects ⊆ U →
      (U \ st.checked_projects).card ≤ fuel →
      ∀ st', splitLoop mi repo_projects ninja_tool fuel st = some st' →
        projects_to_check st' = ∅ := by
  intro fuel
  induction fuel with
  | zero =>
    intro st hin hcard st' h
    have hst : st' = st := (Option.some.inj h).symm
    subst hst
    have hsub : U \ st'.checked_projects = ∅ :=
      Finset.card_eq_zero.mp (Nat.le_zero.mp hcard)
    unfold projects_to_check
    rw [Finset.eq_empty_iff_forall_not_mem]
    intro x hx
    rw [Finset.mem_sdiff] at hx
    have hxU : x ∈ U \ st'.checked_projects := Finset.mem_sdiff.mpr ⟨hin hx.1, hx.2⟩
    rw [hsub] at hxU
    exact absurd hxU (Finset.not_mem_empty x)
  | succ n ih =>
    intro st hin hcard st' h
    simp only [splitLoop] at h
    by_cases hf : projects_to_check st = ∅
    · rw [if_pos hf] at h
      have hst : st' = st := (Option.some.inj h).symm
      subst hst
      exact hf
    · rw [if_neg hf] at h
      rw [Option.bind_eq_some] at h
      obtain ⟨st1, hstep, hloop⟩ := h
      have hin1 : st1.input_projects ⊆ U :=
        splitStep_invariant mi repo_projects ninja_tool U hmp hrepo st st1 hin hstep
      have hch : st1.checked_projects = st.checked_projects ∪ projects_to_check st :=
        splitStep_checked mi repo_projects ninja_tool st st1 hstep
      obtain ⟨x, hx⟩ := Finset.nonempty_iff_ne_empty.mpr hf
      have hxmem := Finset.mem_sdiff.mp hx
      have hssub : U \ st1.checked_projects ⊂ U \ st.checked_projects := by
        rw [hch]
        rw [Finset.ssubset_iff_of_subset
          (Finset.sdiff_subset_sdiff (Finset.Subset.refl U) Finset.subset_union_left)]
        refine ⟨x, Finset.mem_sdiff.mpr ⟨hin hxmem.1, hxmem.2⟩, ?_⟩
        rw [Finset.mem_sdiff]
        push_neg
        intro _
        exact Finset.mem_union_right _ hx
      have hcard1 : (U \ st1.checked_projects).card ≤ n := by
        have hlt := Finset.card_lt_card hssub
        omega
      exact ih st1 hin1 hcard1 st' hloop

/-- Claim C3: over a universe of `N` known project names, the iterative
phase reaches its fixed point within `N` passes regardless of the module
graph or oracle shape: running `N` passes (the loop stops early once the
frontier empties) always ends with an empty frontier, i.e. the
`while projects_to_check` loop terminates after at most `N` iterations. -/
theorem claim_c3_convergence_bound (mi : MI) (repo_projects : String → Option String)
    (ninja_tool : List String → List String) (U : Finset String)
    (hmp : ∀ d p, mi.module_project d = some p → p ∈ U)
    (hrepo : ∀ s n, repo_projects s = some n → n ∈ U)
    (st : SplitState) (hin : st.input_projects ⊆ U) :
    ∀ st', splitLoop mi repo_projects ninja_tool U.card st = some st' →
      projects_to_check st' = ∅ :=
  splitLoop_term_aux mi repo_projects ninja_tool U hmp hrepo U.card st hin
    (Finset.card_le_card Finset.sdiff_subset)

/-- Witness for claim C3 on a one-project universe: the state reached by
`card {p} = 1` passes has an empty frontier. -/
theorem claim_c3_convergence_bound_witness :
    projects_to_check (⟨{"p"}, {"p"}⟩ : SplitState) = ∅ :=
  claim_c3_convergence_bound ⟨fun _ => none, fun _ => none, fun _ => none, fun _ => []⟩
    (fun _ => none) (fun _ => []) {"p"}
    (fun _ _ h => Option.noConfusion h) (fun _ _ h => Option.noConfusion h)
    ⟨{"p"}, ∅⟩ (by decide) ⟨{"p"}, {"p"}⟩ (by decide)

/-- A completed pass grows both state components. -/
lemma splitStep_mono (mi : MI) (repo_projects : String → Option String)
    (ninja_tool : List String → List String) (st st' : SplitState)
    (h : splitStep mi repo_projects ninja_tool st = some st') :
    st.input_projects ⊆ st'.input_projects ∧
      st.checked_projects ⊆ st'.checked_projects := by
  rw [splitStep_eq] at h
  by_cases hall : (passModules mi (projects_to_check st)).all (depsOk mi) = true
  · rw [if_pos hall] at h
    have hst := Option.some.inj h
    rw [← hst]
    exact ⟨Finset.subset_union_left.trans Finset.subset_union_left,
      Finset.subset_union_left⟩
  · rw [if_neg hall] at h
    exact absurd h (by simp)

/-- A completed run of the loop grows both state components. -/
lemma splitLoop_mono (mi : MI) (repo_projects : String → Option String)
    (ninja_tool : List String → List String) :
    ∀ (fuel : Nat) (st st' : SplitState),
      splitLoop mi repo_projects ninja_tool fuel st = some st' →
      st.input_projects ⊆ st'.input_projects ∧
        st.checked_projects ⊆ st'.checked_projects := by
  intro fuel
  induction fuel with
  | zero =>
    intro st st' h
    have hst : st' = st := (Option.some.inj h).symm
    subst hst
    exact ⟨Finset.Subset.refl _, Finset.Subset.refl _⟩
  | succ n ih =>
    intro st st' h
    simp only [splitLoop] at h
    by_cases hf : projects_to_check st = ∅
    · rw [if_pos hf] at h
      have hst : st' = st := (Option.some.inj h).symm
      subst hst
      exact ⟨Finset.Subset.refl _, Finset.Subset.refl _⟩
    · rw [if_neg hf] at h
      rw [Option.bind_eq_some] at h
      obtain ⟨st1, hstep, hloop⟩ := h
      obtain ⟨h1, h2⟩ := splitStep_mono mi repo_projects ninja_tool st st1 hstep
      obtain ⟨h3, h4⟩ := ih st1 st' hloop
      exact ⟨h1.trans h3, h2.trans h4⟩

/-- With an empty frontier the loop is already at its fixed point. -/
lemma splitLoop_of_empty (mi : MI) (repo_projects : String → Option String)
    (ninja_tool : List String → List String) (st : SplitState)
    (h : projects_to_check st = ∅) :
    ∀ fuel, splitLoop mi repo_projects ninja_tool fuel st = some st := by
  intro fuel
  cases fuel with
  | zero => rfl
  | succ n =>
    simp only [splitLoop]
    rw [if_pos h]

/-- Every project checked during a completed run had all its modules
processed successfully, and both the header-library projects and the
adjacent projects discovered from those modules ended up retained.
The `hadd` hypothesis fixes the build-graph query results per module:
the adjacent projects of a module list are the union of the per-module
adjacent projects. -/
lemma splitLoop_procOK (mi : MI) (repo_projects : String → Option String)
    (ninja_tool : List String → List String)
    (hadd : ∀ l : List String, adjacentProjects repo_projects ninja_tool l =
      l.toFinset.biUnion (fun m => adjacentProjects repo_projects ninja_tool [m])) :
    ∀ (fuel : Nat) (st st' : SplitState),
      splitLoop mi repo_projects ninja_tool fuel st = some st' →
      ∀ p ∈ st'.checked_projects, p ∉ st.checked_projects →
        ∀ m ∈ projectModules mi p,
          depsOk mi m = true ∧ hdrProjects mi m ⊆ st'.input_projects ∧
            adjacentProjects repo_projects ninja_tool [m] ⊆ st'.input_projects := by
  intro fuel
  induction fuel with
  | zero =>
    intro st st' h p hp hnp
    have hst : st' = st := (Option.some.inj h).symm
    subst hst
    exact absurd hp (by exact hnp)
  | succ n ih =>
    intro st st' h p hp hnp m hm
    simp only [splitLoop] at h
    by_cases hf : projects_to_check st = ∅
    · rw [if_pos hf] at h
      have hst : st' = st := (Option.some.inj h).symm
      subst hst
      exact absurd hp (by exact hnp)
    · rw [if_neg hf] at h
      rw [Option.bind_eq_some] at h
      obtain ⟨st1, hstep, hloop⟩ := h
      by_cases hp1 : p ∈ st1.checked_projects
      · have hch : st1.checked_projects = st.checked_projects ∪ projects_to_check st :=
          splitStep_checked mi repo_projects ninja_tool st st1 hstep
        have hpf : p ∈ projects_to_check st := by
          rw [hch] at hp1
          rcases Finset.mem_union.mp hp1 with hcase | hcase
          · exact absurd hcase hnp
          · exact hcase
        rw [splitStep_eq] at hstep
        by_cases hall : (passModules mi (projects_to_check st)).all (depsOk mi) = true
        · rw [if_pos hall] at hstep
          have hst1 := Option.some.inj hstep
          have hmem : m ∈ passModules mi (projects_to_check st) :=
            mem_passModules.mpr ⟨p, hpf, hm⟩
          have hloopmono := (splitLoop_mono mi repo_projects ninja_tool n st1 st' hloop).1
          refine ⟨List.all_eq_true.mp hall m hmem, ?_, ?_⟩
          · have h1 : hdrProjects mi m ⊆
                hdrUnion mi (passModules mi (projects_to_check st)) :=
              hdrProjects_subset_hdrUnion hmem
            have h2 : hdrUnion mi (passModules mi (projects_to_check st)) ⊆
                st1.input_projects := by
              rw [← hst1]
              intro x hx
              by_cases hxin : x ∈ st.input_projects
              · exact Finset.mem_union_left _ (Finset.mem_union_left _ hxin)
              · exact Finset.mem_union_left _
                  (Finset.mem_union_right _ (Finset.mem_sdiff.mpr ⟨hx, hxin⟩))
            exact h1.trans (h2.trans hloopmono)
          · have h1 : adjacentProjects repo_projects ninja_tool [m] ⊆
                adjacentProjects repo_projects ninja_tool
                  (passModules mi (projects_to_check st)) := by
              rw [hadd (passModules mi (projects_to_check st))]
              intro x hx
              exact Finset.mem_biUnion.mpr ⟨m, List.mem_toFinset.mpr hmem, hx⟩
            have h2 : adjacentProjects repo_projects ninja_tool
                (passModules mi (projects_to_check st)) ⊆ st1.input_projects := by
              rw [← hst1]
              exact Finset.subset_union_right
            exact h1.trans (h2.trans hloopmono)
        · rw [if_neg hall] at hstep
          exact absurd hstep (by simp)
      · exact ih st1 st' hloop p hp hp1 m hm

/-- Folding a function that ignores its second argument is the identity. -/
lemma foldl_id {α β : Type} (g : β → α → β) (hg : ∀ b a, g b a = b) :
    ∀ (L : List α) (b : β), L.foldl g b = b := by
  intro L
  induction L with
  | nil => intro b; rfl
  | cons a L ih => intro b; rw [List.foldl_cons, hg]; exact ih b

/-- A build-graph oracle that reports no inputs produces no inputs. -/
lemma get_ninja_inputs_nil (modules : List String) :
    get_ninja_inputs (fun _ => []) modules = ∅ := by
  simp only [get_ninja_inputs]
  rw [foldl_id _ (by intro b a; simp)]
  simp

/-- A build-graph oracle that reports no inputs discovers no adjacent
projects, which is additive over module lists. -/
lemma adjacent_nil_additive (repo_projects : String → Option String) :
    ∀ l : List String, adjacentProjects repo_projects (fun _ => []) l =
      l.toFinset.biUnion (fun m => adjacentProjects repo_projects (fun _ => []) [m]) := by
  have hempty : ∀ l : List String,
      adjacentProjects repo_projects (fun _ => []) l = ∅ := by
    intro l
    unfold adjacentProjects
    rw [get_ninja_inputs_nil]
    unfold get_input_projects
    simp
  intro l
  rw [hempty]
  ext x
  simp [hempty]

/-- Claim C4: running the closure loop again, seeding it with the final
retained set of a converged run and keeping the same module graph and the
same per-module build-graph query results (`hadd`), converges immediately
to the same retained set, whatever pass budget the rerun gets. -/
theorem claim_c4_idempotent (mi : MI) (repo_projects : String → Option String)
    (ninja_tool : List String → List String)
    (hadd : ∀ l : List String, adjacentProjects repo_projects ninja_tool l =
      l.toFinset.biUnion (fun m => adjacentProjects repo_projects ninja_tool [m]))
    (seed : Finset String) (fuel : Nat) (stF : SplitState)
    (hrun : splitLoop mi repo_projects ninja_tool fuel ⟨seed, ∅⟩ = some stF)
    (hconv : projects_to_check stF = ∅) (fuel' : Nat) :
    ∃ st', splitLoop mi repo_projects ninja_tool fuel' ⟨stF.input_projects, ∅⟩ = some st' ∧
      st'.input_projects = stF.input_projects := by
  set F := stF.input_projects with hF
  have hFsub : F ⊆ stF.checked_projects := by
    intro x hx
    by_contra hnx
    have hmem : x ∈ projects_to_check stF := Finset.mem_sdiff.mpr ⟨hx, hnx⟩
    rw [hconv] at hmem
    exact absurd hmem (Finset.not_mem_empty x)
  have hfacts : ∀ p ∈ F, ∀ m ∈ projectModules mi p,
      depsOk mi m = true ∧ hdrProjects mi m ⊆ F ∧
        adjacentProjects repo_projects ninja_tool [m] ⊆ F := by
    intro p hp m hm
    exact splitLoop_procOK mi repo_projects ninja_tool hadd fuel ⟨seed, ∅⟩ stF hrun
      p (hFsub hp) (Finset.not_mem_empty p) m hm
  have hfr : projects_to_check (⟨F, ∅⟩ : SplitState) = F := by
    unfold projects_to_check
    exact Finset.sdiff_empty
  have hall : (passModules mi F).all (depsOk mi) = true := by
    rw [List.all_eq_true]
    intro m hm
    obtain ⟨p, hp, hpm⟩ := mem_passModules.mp hm
    exact (hfacts p hp m hpm).1
  have hhdr : hdrUnion mi (passModules mi F) ⊆ F := by
    apply hdrUnion_subset
    intro m hm
    obtain ⟨p, hp, hpm⟩ := mem_passModules.mp hm
    exact (hfacts p hp m hpm).2.1
  have hadjsub : adjacentProjects repo_projects ninja_tool (passModules mi F) ⊆ F := by
    rw [hadd]
    apply Finset.biUnion_subset.mpr
    intro m hm
    obtain ⟨p, hp, hpm⟩ := mem_passModules.mp (List.mem_toFinset.mp hm)
    exact (hfacts p hp m hpm).2.2
  have hstep : splitStep mi repo_projects ninja_tool ⟨F, ∅⟩ = some ⟨F, F⟩ := by
    rw [splitStep_eq, hfr, if_pos hall]
    show some (⟨(F ∪ (hdrUnion mi (passModules mi F) \ F)) ∪
        adjacentProjects repo_projects ninja_tool (passModules mi F),
        ∅ ∪ F⟩ : SplitState) = some ⟨F, F⟩
    have h1 : hdrUnion mi (passModules mi F) \ F = ∅ := by
      rw [Finset.sdiff_eq_empty_iff_subset]
      exact hhdr
    rw [h1, Finset.union_empty, Finset.union_eq_left.mpr hadjsub, Finset.empty_union]
  cases fuel' with
  | zero => exact ⟨⟨F, ∅⟩, rfl, rfl⟩
  | succ k =>
    by_cases hFe : projects_to_check (⟨F, ∅⟩ : SplitState) = ∅
    · refine ⟨⟨F, ∅⟩, ?_, rfl⟩
      simp only [splitLoop]
      rw [if_pos hFe]
    · refine ⟨⟨F, F⟩, ?_, rfl⟩
      simp only [splitLoop]
      rw [if_neg hFe, hstep]
      show splitLoop mi repo_projects ninja_tool k ⟨F, F⟩ = some ⟨F, F⟩
      refine splitLoop_of_empty mi repo_projects ninja_tool ⟨F, F⟩ ?_ k
      unfold projects_to_check
      exact Finset.sdiff_self _

/-- Witness for claim C4: a converged one-project run re-seeded with its own
output keeps the same retained set. -/
theorem claim_c4_idempotent_witness :
    ∃ st', splitLoop ⟨fun _ => none, fun _ => none, fun _ => none, fun _ => []⟩
        (fun _ => none) (fun _ => []) 3
        ⟨(⟨{"p"}, {"p"}⟩ : SplitState).input_projects, ∅⟩ = some st' ∧
      st'.input_projects = (⟨{"p"}, {"p"}⟩ : SplitState).input_projects :=
  claim_c4_idempotent ⟨fun _ => none, fun _ => none, fun _ => none, fun _ => []⟩
    (fun _ => none) (fun _ => []) (adjacent_nil_additive (fun _ => none))
    {"p"} 2 ⟨{"p"}, {"p"}⟩ (by decide) (by decide) 3

/-- Looking a key up past a differently-keyed head. -/
lemma lookup_cons_ne {β : Type} (k d : String) (b : β) (l : List (String × β))
    (h : k ≠ d) : ((k, b) :: l).lookup d = l.lookup d := by
  have hbeq : (d == k) = false := beq_eq_false_iff_ne.mpr (Ne.symm h)
  show (match d == k with | true => some b | false => List.lookup d l) = List.lookup d l
  rw [hbeq]

/-- Looking a key up at a matching head. -/
lemma lookup_cons_eq {β : Type} (d : String) (b : β) (l : List (String × β)) :
    ((d, b) :: l).lookup d = some b := by
  show (match d == d with | true => some b | false => List.lookup d l) = some b
  rw [beq_self_eq_true]

/-- Unfolding `module_paths` over one module-info entry. -/
lemma modulePathsOf_cons (k : String) (rpath : Option (List String))
    (rcls rdeps : List String) (rest : List (String × ModuleRecord)) :
    modulePathsOf ((k, ⟨rpath, rcls, rdeps⟩) :: rest) =
      match rpath with
      | some (p :: _) =>
        if pyStartsWith "out/" p = true then modulePathsOf rest
        else (k, p) :: modulePathsOf rest
      | _ => modulePathsOf rest := by
  cases rpath with
  | none => rfl
  | some ps =>
    cases ps with
    | nil => rfl
    | cons p pr =>
      by_cases hout : pyStartsWith "out/" p = true <;>
        simp [modulePathsOf, List.filterMap_cons, hout]

/-- A module name that is no `module-info` key is no `module_paths` key. -/
lemma modulePaths_key_sub {d : String} :
    ∀ {l : List (String × ModuleRecord)}, d ∉ l.map Prod.fst →
      (modulePathsOf l).lookup d = none := by
  intro l
  induction l with
  | nil => intro _; rfl
  | cons e rest ih =>
    obtain ⟨k, r⟩ := e
    intro hd
    have hne : ¬(d = k ∨ d ∈ rest.map Prod.fst) := by simpa using hd
    have hnk : d ≠ k := fun hcase => hne (Or.inl hcase)
    have hd' : d ∉ rest.map Prod.fst := fun hcase => hne (Or.inr hcase)
    obtain ⟨rpath, rcls, rdeps⟩ := r
    rw [modulePathsOf_cons]
    cases rpath with
    | none => exact ih hd'
    | some ps =>
      cases ps with
      | nil => exact ih hd'
      | cons p pr =>
        by_cases hout : pyStartsWith "out/" p = true
        · simp only [hout, if_true]
          exact ih hd'
        · simp only [hout, Bool.false_eq_true, if_false]
          rw [lookup_cons_ne k d p _ (Ne.symm hnk)]
          exact ih hd'

/-- A module whose record has no usable path is no `module_paths` key. -/
lemma modulePaths_lookup_invalid :
    ∀ (module_info : List (String × ModuleRecord)),
      (module_info.map Prod.fst).Nodup →
      ∀ (d : String) (r : ModuleRecord), module_info.lookup d = some r →
        module_has_valid_path r = false →
        (modulePathsOf module_info).lookup d = none := by
  intro l
  induction l with
  | nil => intro _ d r hl _; exact Option.noConfusion hl
  | cons e rest ih =>
    obtain ⟨k, r0⟩ := e
    intro hnd d r hl hinv
    rw [List.map_cons, List.nodup_cons] at hnd
    have hnd1 : k ∉ rest.map Prod.fst := hnd.1
    obtain ⟨rpath, rcls, rdeps⟩ := r0
    rw [modulePathsOf_cons]
    by_cases hk : k = d
    · subst hk
      rw [lookup_cons_eq] at hl
      have hr : (⟨rpath, rcls, rdeps⟩ : ModuleRecord) = r := Option.some.inj hl
      rw [← hr] at hinv
      cases rpath with
      | none => exact modulePaths_key_sub hnd1
      | some ps =>
        cases ps with
        | nil => exact modulePaths_key_sub hnd1
        | cons p pr =>
          have hout : pyStartsWith "out/" p = true := by
            have hinv' : (!(pyStartsWith "out/" p)) = false := hinv
            simpa using hinv'
          simp only [hout, if_true]
          exact modulePaths_key_sub hnd1
    · rw [lookup_cons_ne k d ⟨rpath, rcls, rdeps⟩ rest hk] at hl
      cases rpath with
      | none => exact ih hnd.2 d r hl hinv
      | some ps =>
        cases ps with
        | nil => exact ih hnd.2 d r hl hinv
        | cons p pr =>
          by_cases hout : pyStartsWith "out/" p = true
          · simp only [hout, if_true]
            exact ih hnd.2 d r hl hinv
          · simp only [hout, Bool.false_eq_true, if_false]
            rw [lookup_cons_ne k d p _ hk]
            exact ih hnd.2 d r hl hinv

/-- The class and project maps of a successfully built module graph. -/
lemma build_ok_elim (repo_projects : String → Option String)
    (module_info : List (String × ModuleRecord)) (mi : MI)
    (h : build_module_info repo_projects module_info = Except.ok mi) :
    mi.module_cls = (fun m => (module_info.lookup m).bind (fun r => r.cls.head?)) ∧
      mi.module_project = (fun m =>
        (((modulePathsOf module_info).lookup m).bind
          (scan_repo_projects repo_projects)).bind repo_projects) := by
  simp only [build_module_info] at h
  by_cases h1 : (modulePathsOf module_info).all (fun mp =>
      match scan_repo_projects repo_projects mp.2 with
      | some q => q != ""
      | none => false) = true
  · rw [if_pos h1] at h
    by_cases h2 : module_info.all (fun entry => entry.2.cls != []) = true
    · rw [if_pos h2] at h
      have hmi := Except.ok.inj h
      rw [← hmi]
      exact ⟨rfl, rfl⟩
    · rw [if_neg h2] at h
      exact Except.noConfusion h
  · rw [if_neg h1] at h
    exact Except.noConfusion h

/-- Claim C10: a `HEADER_LIBRARIES` module of `module-info.json` whose path
entry is missing, empty, or under `out/` is a `module_class` key but not a
`module_project` key of the built graph, and once any frontier module
depends on it, `process_deps` performs the unguarded `module_project`
lookup, so the pass and with it the whole closure loop die with an uncaught
exception instead of skipping the dependency. -/
theorem claim_c10_header_crash (repo_projects : String → Option String)
    (ninja_tool : List String → List String)
    (module_info : List (String × ModuleRecord)) (mi : MI)
    (hnd : (module_info.map Prod.fst).Nodup)
    (d : String) (r : ModuleRecord)
    (hl : module_info.lookup d = some r)
    (hcls : r.cls.head? = some "HEADER_LIBRARIES")
    (hinv : module_has_valid_path r = false)
    (hbuild : build_module_info repo_projects module_info = Except.ok mi)
    (st : SplitState) (p m : String)
    (hp : p ∈ projects_to_check st) (hm : m ∈ projectModules mi p)
    (hdep : d ∈ mi.module_deps m) (fuel : Nat) :
    mi.module_cls d = some "HEADER_LIBRARIES" ∧ mi.module_project d = none ∧
      splitStep mi repo_projects ninja_tool st = none ∧
      splitLoop mi repo_projects ninja_tool (fuel + 1) st = none := by
  obtain ⟨hclsf, hprojf⟩ := build_ok_elim repo_projects module_info mi hbuild
  have hc : mi.module_cls d = some "HEADER_LIBRARIES" := by
    rw [hclsf]
    show (module_info.lookup d).bind (fun r => r.cls.head?) = some "HEADER_LIBRARIES"
    rw [hl]
    exact hcls
  have hpnone : mi.module_project d = none := by
    rw [hprojf]
    show (((modulePathsOf module_info).lookup d).bind
      (scan_repo_projects repo_projects)).bind repo_projects = none
    rw [modulePaths_lookup_invalid module_info hnd d r hl hinv]
    rfl
  have hdok : depOk mi d = false := by
    unfold depOk
    rw [hc]
    simp [hpnone]
  have hdeps : depsOk mi m = false := by
    unfold depsOk
    by_contra hcon
    have htrue : (mi.module_deps m).all (depOk mi) = true := by
      cases hb : (mi.module_deps m).all (depOk mi) with
      | false => exact absurd hb hcon
      | true => rfl
    have hd2 := List.all_eq_true.mp htrue d hdep
    rw [hdok] at hd2
    exact Bool.noConfusion hd2
  have hmm : m ∈ passModules mi (projects_to_check st) := mem_passModules.mpr ⟨p, hp, hm⟩
  have hall : (passModules mi (projects_to_check st)).all (depsOk mi) = false := by
    by_contra hcon
    have htrue : (passModules mi (projects_to_check st)).all (depsOk mi) = true := by
      cases hb : (passModules mi (projects_to_check st)).all (depsOk mi) with
      | false => exact absurd hb hcon
      | true => rfl
    have hm2 := List.all_eq_true.mp htrue m hmm
    rw [hdeps] at hm2
    exact Bool.noConfusion hm2
  have hstep : splitStep mi repo_projects ninja_tool st = none := by
    rw [splitStep_eq, if_neg]
    rw [hall]
    simp
  have hloop : splitLoop mi repo_projects ninja_tool (fuel + 1) st = none := by
    simp only [splitLoop]
    rw [if_neg (show ¬ projects_to_check st = ∅ from
      fun hempty => absurd (hempty ▸ hp) (Finset.not_mem_empty p)), hstep]
    rfl
  exact ⟨hc, hpnone, hstep, hloop⟩

/-- Witness for claim C10: `hdr` is a header library whose path is under
`out/`; the module `app` of project `vendor/x` depends on it, and the first
pass of the loop dies. -/
theorem claim_c10_header_crash_witness :
    (builtMI (fun s => if s = "vendor/x" then some "vendor/x" else none)
        [("hdr", ⟨some ["out/gen"], ["HEADER_LIBRARIES"], []⟩),
          ("app", ⟨some ["vendor/x"], ["APPS"], ["hdr"]⟩)]).module_cls "hdr" =
        some "HEADER_LIBRARIES" ∧
      (builtMI (fun s => if s = "vendor/x" then some "vendor/x" else none)
        [("hdr", ⟨some ["out/gen"], ["HEADER_LIBRARIES"], []⟩),
          ("app", ⟨some ["vendor/x"], ["APPS"], ["hdr"]⟩)]).module_project "hdr" = none ∧
      splitStep (builtMI (fun s => if s = "vendor/x" then some "vendor/x" else none)
        [("hdr", ⟨some ["out/gen"], ["HEADER_LIBRARIES"], []⟩),
          ("app", ⟨some ["vendor/x"], ["APPS"], ["hdr"]⟩)])
        (fun s => if s = "vendor/x" then some "vendor/x" else none) (fun _ => [])
        ⟨{"vendor/x"}, ∅⟩ = none ∧
      splitLoop (builtMI (fun s => if s = "vendor/x" then some "vendor/x" else none)
        [("hdr", ⟨some ["out/gen"], ["HEADER_LIBRARIES"], []⟩),
          ("app", ⟨some ["vendor/x"], ["APPS"], ["hdr"]⟩)])
        (fun s => if s = "vendor/x" then some "vendor/x" else none) (fun _ => [])
        (0 + 1) ⟨{"vendor/x"}, ∅⟩ = none :=
  claim_c10_header_crash (fun s => if s = "vendor/x" then some "vendor/x" else none)
    (fun _ => [])
    [("hdr", ⟨some ["out/gen"], ["HEADER_LIBRARIES"], []⟩),
      ("app", ⟨some ["vendor/x"], ["APPS"], ["hdr"]⟩)]
    (builtMI (fun s => if s = "vendor/x" then some "vendor/x" else none)
      [("hdr", ⟨some ["out/gen"], ["HEADER_LIBRARIES"], []⟩),
        ("app", ⟨some ["vendor/x"], ["APPS"], ["hdr"]⟩)])
    (by decide) "hdr" ⟨some ["out/gen"], ["HEADER_LIBRARIES"], []⟩
    (by decide) (by decide) (by decide) rfl
    ⟨{"vendor/x"}, ∅⟩ "vendor/x" "app" (by decide) (by decide) (by decide) 0

/-- Counterexample to claim C6 as stated: the module `m` declares source
path `out/a`, which resolves to no known project, yet `ModuleInfo`
construction succeeds instead of raising, because modules whose path starts
with `out/` are filtered out before resolution. -/
theorem claim_c6_counterexample :
    scan_repo_projects (fun s => if s = "vendor/a" then some "vendor/a" else none) "out/a"
        = none ∧
      ∃ mi, build_module_info (fun s => if s = "vendor/a" then some "vendor/a" else none)
        [("m", ⟨some ["out/a"], ["APPS"], []⟩)] = Except.ok mi :=
  ⟨by decide, ⟨builtMI (fun s => if s = "vendor/a" then some "vendor/a" else none)
    [("m", ⟨some ["out/a"], ["APPS"], []⟩)], rfl⟩⟩

/-- Claim C6 as amended: for every module whose declared source path is
present, nonempty and not under `out/`, if resolving that path yields no
known project (Python falsy: `None` or the empty string), then module-graph
construction fails fatally with `ValueError`. -/
theorem claim_c6_module_integrity_amended (repo_projects : String → Option String)
    (module_info : List (String × ModuleRecord)) (m : String) (r : ModuleRecord)
    (hmem : (m, r) ∈ module_info)
    (p : String) (ps : List String) (hpath : r.path = some (p :: ps))
    (hout : pyStartsWith "out/" p = false)
    (hscan : scan_repo_projects repo_projects p = none ∨
      scan_repo_projects repo_projects p = some "") :
    ∃ e, build_module_info repo_projects module_info = Except.error e := by
  have hmp : (m, p) ∈ modulePathsOf module_info := by
    unfold modulePathsOf
    rw [List.mem_filterMap]
    refine ⟨(m, r), hmem, ?_⟩
    show (match r.path with
      | some (q :: _) => if pyStartsWith "out/" q then none else some (m, q)
      | _ => none) = some (m, p)
    rw [hpath]
    show (if pyStartsWith "out/" p then none else some (m, p)) = some (m, p)
    rw [if_neg (by rw [hout]; simp)]
  have hall : (modulePathsOf module_info).all (fun mp =>
      match scan_repo_projects repo_projects mp.2 with
      | some q => q != ""
      | none => false) = false := by
    cases hb : (modulePathsOf module_info).all (fun mp =>
        match scan_repo_projects repo_projects mp.2 with
        | some q => q != ""
        | none => false) with
    | false => rfl
    | true =>
      have hpred := List.all_eq_true.mp hb (m, p) hmp
      rcases hscan with hs | hs <;> rw [hs] at hpred <;> simp at hpred
  refine ⟨"Unknown module path", ?_⟩
  simp only [build_module_info]
  rw [if_neg (by rw [hall]; simp)]

/-- Witness for the amended claim C6: a module with the valid path
`vendor/a` over an empty project table makes construction fail. -/
theorem claim_c6_module_integrity_amended_witness :
    ∃ e, build_module_info (fun _ => none) [("m", ⟨some ["vendor/a"], ["APPS"], []⟩)]
      = Except.error e :=
  claim_c6_module_integrity_amended (fun _ => none)
    [("m", ⟨some ["vendor/a"], ["APPS"], []⟩)] "m" ⟨some ["vendor/a"], ["APPS"], []⟩
    (by decide) "vendor/a" [] rfl (by decide) (Or.inl (by decide))
